import Mathlib

/-!
# A shallow embedding of the BaseCom packet codec

This file models the BaseCom header-only C++ library: the `ComPacket`
serialization / deserialization engine, the `Bitfield` bit-packing class and
the identifier matching of `TagedComPacket`.  Buffers are modelled as
`List Nat` of byte values, machine-size arithmetic (`size_t`) as `Nat`
(the one place where `size_t` underflow matters, the string serializer's
`typelength - 1`, is discussed at its definition).
-/

namespace BaseCom

/-- A field value of a `ComPacket`.  The supported categories are the ones the
C++ dispatch handles: arithmetic scalars (kept as their raw host-order bytes),
`etl::string<cap>` bounded strings, `std::string` dynamic strings, `Bitfield`
backing storage, and `std::array` fixed arrays of further fields. -/
inductive FieldVal where
  | scalar : List Nat → FieldVal
  | bstr : Nat → List Nat → FieldVal
  | dstr : List Nat → FieldVal
  | bitf : Nat → List Nat → FieldVal
  | arr : List FieldVal → FieldVal

/-- The static type of a field: `sizeof` for scalars, `MAX_SIZE_` for
`etl::string`, the bit length for `Bitfield`, element count and element type
for `std::array`. -/
inductive FieldTy where
  | scalarT : Nat → FieldTy
  | bstrT : Nat → FieldTy
  | dstrT : FieldTy
  | bitfT : Nat → FieldTy
  | arrT : Nat → FieldTy → FieldTy
deriving DecidableEq

/-- `Bitfield::BYTE_LENGTH = (bitlength + 7) / 8`. -/
def byteLength (bitlength : Nat) : Nat := (bitlength + 7) / 8

mutual
/-- Well-formedness of a value at a type: the invariants the C++ type system
enforces on a live packet (a scalar has exactly `sizeof(T)` bytes, an
`etl::string<cap>` holds at most `cap` characters, a `Bitfield` owns exactly
`BYTE_LENGTH` backing bytes, an array has its declared element count), plus
the spec's "within declared bounds" requirement that strings carry no embedded
null byte. -/
def wf : FieldTy → FieldVal → Bool
  | .scalarT n, .scalar bs => bs.length == n
  | .bstrT cap, .bstr cap' content =>
      cap' == cap && content.length ≤ cap && !(content.contains 0)
  | .dstrT, .dstr content => !(content.contains 0)
  | .bitfT bl, .bitf bl' st => bl' == bl && st.length == byteLength bl
  | .arrT k t, .arr es => es.length == k && wfList t es
  | _, _ => false

def wfList : FieldTy → List FieldVal → Bool
  | _, [] => true
  | t, e :: es => wf t e && wfList t es
end

mutual
/-- `utils::getSerializedLength`: `sizeof(T)` for scalars, `length() + 1` for
strings, `GetByteLength()` for bitfields, the sum over the elements for
arrays. -/
def serializedLength : FieldVal → Nat
  | .scalar bs => bs.length
  | .bstr _ content => content.length + 1
  | .dstr content => content.length + 1
  | .bitf bl _ => byteLength bl
  | .arr es => serializedLengths es

def serializedLengths : List FieldVal → Nat
  | [] => 0
  | e :: es => serializedLength e + serializedLengths es
end

mutual
/-- The bytes a field contributes to the wire image when the output buffer is
large enough: raw bytes for scalars and bitfield storage, the characters
followed by one `0x00` terminator for strings, the concatenation of the
elements for arrays. -/
def serializeField : FieldVal → List Nat
  | .scalar bs => bs
  | .bstr _ content => content ++ [0]
  | .dstr content => content ++ [0]
  | .bitf _ st => st
  | .arr es => serializeFields es

def serializeFields : List FieldVal → List Nat
  | [] => []
  | e :: es => serializeField e ++ serializeFields es
end

/-- `utils::strlen_s(data, maxlength)`: index of the first `0` byte, or the
whole length when none occurs.  The model's list is exactly the
`maxlength`-byte window the C++ function may scan. -/
def strlenS : List Nat → Nat
  | [] => 0
  | b :: bs => if b = 0 then 0 else strlenS bs + 1

/-- The value a default-constructed (`tupletype()`) scratch element holds:
zero for arithmetic types, the empty string, zero-initialized bitfield
storage, a default-constructed element per array slot. -/
def defaultVal : FieldTy → FieldVal
  | .scalarT n => .scalar (List.replicate n 0)
  | .bstrT cap => .bstr cap []
  | .dstrT => .dstr []
  | .bitfT bl => .bitf bl (List.replicate (byteLength bl) 0)
  | .arrT k t => .arr (List.replicate k (defaultVal t))

/-- The element loop of the `std::array` overload of
`utils::deserializeFromBuffer`: deserialize each element in index order with
`f`, handing each the window that remains after its predecessors
(`&data[readbytes]`, `length - readbytes`), summing the consumed counts and
ANDing the validity contributions. -/
def deserializeListWith (f : FieldVal → List Nat → Nat × Bool × FieldVal) :
    List FieldVal → List Nat → Nat × Bool × List FieldVal
  | [], _ => (0, true, [])
  | e :: es, data =>
      let r := f e data
      let rs := deserializeListWith f es (data.drop r.1)
      (r.1 + rs.1, r.2.1 && rs.2.1, r.2.2 :: rs.2.2)

/-- `utils::deserializeFromBuffer(data, length, element, valid)`.  The window
list holds exactly the `length` bytes starting at `data`; `element`'s value on
entry is `prior`.  The result is `(bytes consumed, contribution to the valid
flag, element value on exit)` — the C++ code only ever does `valid &= false`,
so a `true` contribution means the flag was left untouched.

* arithmetic `T`: if `length >= sizeof(T)` memcpy `sizeof(T)` bytes, else
  clear `valid` and report all of `length` consumed, element untouched;
* `etl::string<cap>`: scan `min(strlen_s(data, length), MAX_SIZE_)`
  characters, copy them, consume one extra byte when a terminator was inside
  the window; `valid` is never touched;
* `std::string`: same without the `MAX_SIZE_` clamp;
* `Bitfield`: `ParseData` copies `min(length, sizeof(storage))` bytes into
  the front of the storage, clearing `valid` when the window is short;
* `std::array`: if `length` is at least the serialized length of the current
  (prior) elements, deserialize each element in order from the remaining
  window, else clear `valid`, report `length` consumed, elements untouched. -/
def deserializeField : FieldTy → FieldVal → List Nat → Nat × Bool × FieldVal
  | .scalarT n => fun prior data =>
      if n ≤ data.length then (n, true, .scalar (data.take n))
      else (data.length, false, prior)
  | .bstrT cap => fun _ data =>
      let sl := min (strlenS data) cap
      (if sl < data.length then sl + 1 else sl, true, .bstr cap (data.take sl))
  | .dstrT => fun _ data =>
      let sl := strlenS data
      (if sl < data.length then sl + 1 else sl, true, .dstr (data.take sl))
  | .bitfT bl => fun prior data =>
      let st := match prior with | .bitf _ s => s | _ => List.replicate (byteLength bl) 0
      let bytestowrite := min (byteLength bl) data.length
      (bytestowrite, byteLength bl ≤ data.length,
        .bitf bl (data.take bytestowrite ++ st.drop bytestowrite))
  | .arrT k t => fun prior data =>
      let es := match prior with | .arr es => es | _ => List.replicate k (defaultVal t)
      if serializedLengths es ≤ data.length then
        let r := deserializeListWith (deserializeField t) es data
        (r.1, r.2.1, .arr r.2.2)
      else (data.length, false, .arr es)

/-- The fold inside `ComPacket::Unserialize`: `parsed_elements` starts as the
default-constructed tuple, each field is deserialized in declaration order
from `&data[offset]` with `length - offset` remaining bytes, `offset`
accumulates the consumed counts and `valid` starts `true` and is ANDed with
every field's contribution. -/
def unserializePacket : List FieldTy → List Nat → Nat × Bool × List FieldVal
  | [], _ => (0, true, [])
  | t :: ts, data =>
      let r := deserializeField t (defaultVal t) data
      let rs := unserializePacket ts (data.drop r.1)
      (r.1 + rs.1, r.2.1 && rs.2.1, r.2.2 :: rs.2.2)

/-- `ComPacket::Unserialize(data, length, packet)`: run the fold on a scratch
tuple and commit it into the target packet only when `valid` is true.  The
third component is the target's field list after the call. -/
def Unserialize (tys : List FieldTy) (data : List Nat) (target : List FieldVal) :
    Nat × Bool × List FieldVal :=
  let r := unserializePacket tys data
  (r.1, r.2.1, if r.2.1 then r.2.2 else target)

/-! ## Bounded serialization

The C++ writers receive a cursor iterator and an end iterator into a caller
buffer.  We model the buffer as the full allocation (a `List Nat`), the cursor
and the end bound as indices into it, and additionally record every index a
writer stores to, so that bounds claims can be stated about the accesses
themselves.  A store to an index outside the allocation is kept in `touched`
but (like any model of undefined behaviour) leaves the list unchanged. -/

/-- Result of running a writer: buffer contents, advanced cursor, and the
indices written to, in order. -/
structure WRes where
  buf : List Nat
  it : Nat
  touched : List Nat

/-- Byte-wise `memcpy` of `src` into the buffer starting at index `i`. -/
def writeBytes (buf : List Nat) (i : Nat) : List Nat → List Nat
  | [] => buf
  | x :: xs => writeBytes (buf.set i x) (i + 1) xs

/-- `memcpy(&(*it), data, tocopy); advance(it, tocopy);` -/
def memcpyB (src : List Nat) (tocopy : Nat) (buf : List Nat) (it : Nat) : WRes :=
  ⟨writeBytes buf it (src.take tocopy), it + tocopy, List.range' it tocopy⟩

mutual
/-- `utils::serializeToBuffer(data, it, end)` for each field category.

* arithmetic: `tocopy = min(sizeof(T), distance(it, end))`, bounded memcpy;
* strings (`std::string` and `etl::string` are identical here):
  `typelength = min(length()+1, distance(it, end))`, copy
  `min(typelength - 1, distance(it, end))` characters, then `*it = 0; it++`
  — the terminator store is not guarded by the end bound.  `typelength - 1`
  underflows `size_t` when `typelength = 0`, but the subsequent
  `min` with `distance(it, end) = 0` clamps it to `0` exactly as `Nat`
  subtraction does, so `Nat` subtraction is faithful;
* `Bitfield::BuildPacket`: copy `min(sizeof(storage), distance(it, end))`
  storage bytes;
* arrays: serialize each element in index order. -/
def serializeFieldB (v : FieldVal) (buf : List Nat) (it endIdx : Nat) : WRes :=
  match v with
  | .scalar bs => memcpyB bs (min bs.length (endIdx - it)) buf it
  | .bstr _ content =>
      let typelength := min (content.length + 1) (endIdx - it)
      let r := memcpyB content (min (typelength - 1) (endIdx - it)) buf it
      ⟨r.buf.set r.it 0, r.it + 1, r.touched ++ [r.it]⟩
  | .dstr content =>
      let typelength := min (content.length + 1) (endIdx - it)
      let r := memcpyB content (min (typelength - 1) (endIdx - it)) buf it
      ⟨r.buf.set r.it 0, r.it + 1, r.touched ++ [r.it]⟩
  | .bitf _ st => memcpyB st (min st.length (endIdx - it)) buf it
  | .arr es => serializeFieldsB es buf it endIdx

def serializeFieldsB (es : List FieldVal) (buf : List Nat) (it endIdx : Nat) : WRes :=
  match es with
  | [] => ⟨buf, it, []⟩
  | e :: es =>
      let r := serializeFieldB e buf it endIdx
      let rs := serializeFieldsB es r.buf r.it endIdx
      ⟨rs.buf, rs.it, r.touched ++ rs.touched⟩
end

/-- `ComPacket::Serialize(begin, end)`: compute `GetSerializedLength()`, return
`0` without touching the buffer when `distance(begin, end)` is smaller,
otherwise run every field's writer in declaration order and return
`distance(begin, start)`.  The buffer begins at index `0` and ends at
`buf.length`; the returned pair is `(bytes written, buffer contents)`. -/
def SerializeTop (fields : List FieldVal) (buf : List Nat) : Nat × List Nat :=
  let packetLength := serializedLengths fields
  if buf.length < packetLength then (0, buf)
  else
    let r := serializeFieldsB fields buf 0 buf.length
    (r.it, r.buf)

/-! ## Identifier matching -/

/-- Index of the first byte where `data` diverges from `idbytes`, scanning
`idbytes` from the front; equals `idbytes.length` on a full prefix match.
This is the final value of `i` in the comparison loop of the pointer
`ComPacket::CheckIDMatch`. -/
def firstMismatch : List Nat → List Nat → Nat
  | [], _ => 0
  | _ :: _, [] => 0
  | x :: xs, y :: ys => if x ≠ y then 0 else firstMismatch xs ys + 1

/-- The protected pointer overload
`CheckIDMatch(data, datalength, idbytes) -> (matched, &data[i], datalength - i)`:
rejects immediately when `datalength < arraylength`, otherwise compares the
first `arraylength` bytes, breaking at the first divergence.  The pointer
result is modelled as an offset into `data` (`none` for `nullptr`); the list
`data` holds exactly `datalength` bytes. -/
def CheckIDMatch (data : List Nat) (idbytes : List Nat) : Bool × Option Nat × Nat :=
  if data.length < idbytes.length then (false, none, 0)
  else
    let i := firstMismatch idbytes data
    (i == idbytes.length, some i, data.length - i)

/-- The public array overload `CheckIDMatch(data, length, idbytes)`: asserts
`length <= datalength`, delegates to the pointer overload on the first
`length` bytes, and on success returns an iterator `readbytes` past the start;
on any failure it returns `(false, data.begin(), 0)`.  Iterators into the
array are modelled as offsets. -/
def CheckIDMatchArray (data : List Nat) (length : Nat) (idbytes : List Nat) :
    Bool × Nat × Nat :=
  if length ≤ data.length then
    let r := CheckIDMatch (data.take length) idbytes
    if r.1 then (true, length - r.2.2, r.2.2)
    else (false, 0, 0)
  else (false, 0, 0)

/-! ## Bitfield bit operations -/

/-- `Bitfield::CalculateBitMask(bitstart, length, shift)`: `shift` is
`bitstart % 8` and the mask accumulates `1 << i` for
`i ∈ [shift, shift + length)` in a `uint8_t`, so bits at positions `≥ 8` are
truncated away — the `% 256`. -/
def calculateBitMask (bitstart length : Nat) : Nat :=
  ((2 ^ length - 1) * 2 ^ (bitstart % 8)) % 256

/-- `Bitfield::GetStorageLocationForBit`. -/
def storageLocation (bitnumber : Nat) : Nat := bitnumber / 8

/-- `Bitfield::GetData<T>(bitstart, datalength)`: read the backing byte the
bit range lives in, mask and shift it down. -/
def GetData (storage : List Nat) (bitstart datalength : Nat) : Nat :=
  let shift := bitstart % 8
  let mask := calculateBitMask bitstart datalength
  let rawdata := storage.getD (storageLocation bitstart) 0
  (rawdata &&& mask) >>> shift

/-- `Bitfield::WriteData<T>(bitstart, datalength, data)`: mask the incoming
value with `mask >> shift`, clear the masked bits of the backing byte
(`&= ~mask`, i.e. AND with the 8-bit complement `255 ^^^ mask`), then OR the
masked value shifted into place. -/
def WriteData (storage : List Nat) (bitstart datalength data : Nat) : List Nat :=
  let shift := bitstart % 8
  let mask := calculateBitMask bitstart datalength
  let maskedData := data &&& (mask >>> shift)
  let loc := storageLocation bitstart
  storage.set loc (((storage.getD loc 0) &&& (255 ^^^ mask)) ||| (maskedData <<< shift))

/-! ## Derived size quantities -/

/-- Well-formedness of a whole packet: the value list matches the field type
list position by position. -/
def wfPacket : List FieldTy → List FieldVal → Bool
  | [], [] => true
  | t :: ts, v :: vs => wf t v && wfPacket ts vs
  | _, _ => false

/-- Serialized length of a default-constructed field of type `t` — the length
`getSerializedLength` reports for the scratch element before any data is
decoded into it. -/
def dLen (t : FieldTy) : Nat := serializedLength (defaultVal t)

/-- The minimum number of input bytes a field of type `t` needs for a decode
that does not clear the valid flag: `sizeof(T)` for scalars, `BYTE_LENGTH`
for bitfields, `0` for strings (the string decoders accept any window), and
for arrays the serialized length of the default elements that the up-front
guard compares against. -/
def minLen : FieldTy → Nat
  | .scalarT n => n
  | .bstrT _ => 0
  | .dstrT => 0
  | .bitfT bl => byteLength bl
  | .arrT k t => k * dLen t

/-- Minimum required length of a packet type: the sum over its fields. -/
def minLenPacket : List FieldTy → Nat
  | [] => 0
  | t :: ts => minLen t + minLenPacket ts

/-! ## Basic lemmas -/

theorem strlenS_le (data : List Nat) : strlenS data ≤ data.length := by
  induction data with
  | nil => simp [strlenS]
  | cons b bs ih => by_cases h : b = 0 <;> simp [strlenS, h] <;> omega

theorem serializedLengths_replicate (k : Nat) (v : FieldVal) :
    serializedLengths (List.replicate k v) = k * serializedLength v := by
  induction k with
  | zero => simp [serializedLengths]
  | succ k ih => simp [List.replicate, serializedLengths, ih]; ring

theorem dLen_arrT (k : Nat) (t : FieldTy) : dLen (.arrT k t) = k * dLen t := by
  simp [dLen, defaultVal, serializedLength, serializedLengths_replicate]

theorem deserializeListWith_consumed_le (f : FieldVal → List Nat → Nat × Bool × FieldVal)
    (hf : ∀ e d, (f e d).1 ≤ d.length) :
    ∀ (es : List FieldVal) (data : List Nat),
      (deserializeListWith f es data).1 ≤ data.length := by
  intro es
  induction es with
  | nil => intro data; simp [deserializeListWith]
  | cons e es ih =>
      intro data
      simp only [deserializeListWith]
      have h1 := hf e data
      have h2 := ih (data.drop (f e data).1)
      simp only [List.length_drop] at h2
      omega

/-- Every deserializer consumes at most the window it is handed: no reader
reports more input than the caller supplied. -/
theorem deserializeField_consumed_le :
    ∀ (t : FieldTy) (prior : FieldVal) (data : List Nat),
      (deserializeField t prior data).1 ≤ data.length := by
  intro t
  induction t with
  | scalarT n =>
      intro prior data
      simp only [deserializeField]
      split <;> simp <;> omega
  | bstrT cap =>
      intro prior data
      have := strlenS_le data
      simp only [deserializeField]
      split <;> simp <;> omega
  | dstrT =>
      intro prior data
      have := strlenS_le data
      simp only [deserializeField]
      split <;> simp <;> omega
  | bitfT bl =>
      intro prior data
      cases prior <;> simp [deserializeField] <;> omega
  | arrT k t ih =>
      intro prior data
      cases prior <;> simp only [deserializeField] <;> split <;> simp <;>
        exact deserializeListWith_consumed_le _ ih _ _

/-! ## Sizes of well-formed values -/

theorem wfList_serializeFields_length (t : FieldTy)
    (ihf : ∀ v, wf t v = true → (serializeField v).length = serializedLength v) :
    ∀ es, wfList t es = true → (serializeFields es).length = serializedLengths es := by
  intro es
  induction es with
  | nil => intro _; simp [serializeFields, serializedLengths]
  | cons e es ihe =>
      intro hes
      simp only [wfList, Bool.and_eq_true] at hes
      simp [serializeFields, serializedLengths, ihf e hes.1, ihe hes.2]

/-- For a well-formed value the wire image has exactly `getSerializedLength`
bytes. -/
theorem wf_serializeField_length :
    ∀ (t : FieldTy) (v : FieldVal), wf t v = true →
      (serializeField v).length = serializedLength v := by
  intro t
  induction t with
  | scalarT n =>
      intro v hv
      cases v <;> simp [wf] at hv <;> simp [serializeField, serializedLength]
  | bstrT cap =>
      intro v hv
      cases v <;> simp [wf] at hv <;> simp [serializeField, serializedLength]
  | dstrT =>
      intro v hv
      cases v <;> simp [wf] at hv <;> simp [serializeField, serializedLength]
  | bitfT bl =>
      intro v hv
      cases v <;> simp [wf] at hv
      simp [serializeField, serializedLength, hv.1, hv.2]
  | arrT k t ih =>
      intro v hv
      cases v <;> simp [wf] at hv
      simp only [serializeField, serializedLength]
      exact wfList_serializeFields_length t ih _ hv.2

theorem wfList_dLen_le (t : FieldTy)
    (ihf : ∀ v, wf t v = true → dLen t ≤ serializedLength v) :
    ∀ es, wfList t es = true → es.length * dLen t ≤ serializedLengths es := by
  intro es
  induction es with
  | nil => intro _; simp [serializedLengths]
  | cons e es ihe =>
      intro hes
      simp only [wfList, Bool.and_eq_true] at hes
      have h1 := ihf e hes.1
      have h2 := ihe hes.2
      simp only [serializedLengths, List.length_cons]
      have : (es.length + 1) * dLen t = dLen t + es.length * dLen t := by ring
      omega

/-- A well-formed value is at least as long on the wire as a
default-constructed value of its type. -/
theorem wf_dLen_le :
    ∀ (t : FieldTy) (v : FieldVal), wf t v = true → dLen t ≤ serializedLength v := by
  intro t
  induction t with
  | scalarT n =>
      intro v hv
      cases v <;> simp [wf] at hv
      simp [dLen, defaultVal, serializedLength, hv]
  | bstrT cap =>
      intro v hv
      cases v <;> simp [wf] at hv
      simp [dLen, defaultVal, serializedLength]
  | dstrT =>
      intro v hv
      cases v <;> simp [wf] at hv
      simp [dLen, defaultVal, serializedLength]
  | bitfT bl =>
      intro v hv
      cases v <;> simp [wf] at hv
      simp [dLen, defaultVal, serializedLength, hv.1]
  | arrT k t ih =>
      intro v hv
      cases v <;> simp [wf] at hv
      obtain ⟨hk, hes⟩ := hv
      rw [dLen_arrT, ← hk]
      simpa [serializedLength] using wfList_dLen_le t ih _ hes

/-! ## Round-trip lemmas -/

theorem strlenS_append_zero (content rest : List Nat) (h : ¬ 0 ∈ content) :
    strlenS (content ++ 0 :: rest) = content.length := by
  induction content with
  | nil => simp [strlenS]
  | cons b bs ih =>
      simp only [List.mem_cons, not_or] at h
      have hb : ¬ b = 0 := fun hb => h.1 hb.symm
      simp [strlenS, hb, ih h.2]

theorem roundtrip_list (t : FieldTy)
    (ihf : ∀ v, wf t v = true → ∀ rest,
      deserializeField t (defaultVal t) (serializeField v ++ rest) =
        (serializedLength v, true, v)) :
    ∀ es, wfList t es = true → ∀ rest,
      deserializeListWith (deserializeField t) (List.replicate es.length (defaultVal t))
          (serializeFields es ++ rest) = (serializedLengths es, true, es) := by
  intro es
  induction es with
  | nil => intro _ rest; simp [serializeFields, deserializeListWith, serializedLengths]
  | cons e es ihe =>
      intro hes rest
      simp only [wfList, Bool.and_eq_true] at hes
      simp only [List.length_cons, List.replicate_succ, serializeFields, deserializeListWith]
      rw [List.append_assoc, ihf e hes.1 (serializeFields es ++ rest)]
      have hlen := wf_serializeField_length t e hes.1
      have hdrop : (serializeField e ++ (serializeFields es ++ rest)).drop (serializedLength e)
          = serializeFields es ++ rest := by
        rw [← hlen]; exact List.drop_left _ _
      simp only [hdrop, ihe hes.2 rest, serializedLengths]
      simp

/-- Deserializing the wire image of a well-formed field (followed by anything)
into a fresh scratch element reproduces the field, consumes exactly its
serialized length and keeps the valid flag intact. -/
theorem roundtrip_field :
    ∀ (t : FieldTy) (v : FieldVal), wf t v = true → ∀ rest,
      deserializeField t (defaultVal t) (serializeField v ++ rest) =
        (serializedLength v, true, v) := by
  intro t
  induction t with
  | scalarT n =>
      intro v hv rest
      cases v <;> simp [wf] at hv
      subst hv
      simp [deserializeField, serializeField, serializedLength, List.take_left]
  | bstrT cap =>
      intro v hv rest
      cases v <;> simp [wf] at hv
      rename_i cap' content
      obtain ⟨⟨hcap, hle⟩, hmem⟩ := hv
      subst hcap
      simp only [serializeField, deserializeField, serializedLength]
      rw [List.append_assoc, List.singleton_append, strlenS_append_zero _ _ hmem,
        Nat.min_eq_left hle]
      simp [List.take_left]
  | dstrT =>
      intro v hv rest
      cases v <;> simp [wf] at hv
      simp only [serializeField, deserializeField, serializedLength]
      rw [List.append_assoc, List.singleton_append, strlenS_append_zero _ _ hv]
      simp [List.take_left]
  | bitfT bl =>
      intro v hv rest
      cases v <;> simp [wf] at hv
      rename_i bl' st
      obtain ⟨hbl, hlen⟩ := hv
      subst hbl
      simp only [serializeField, deserializeField, defaultVal, serializedLength]
      rw [← hlen]
      simp [List.take_left, Nat.min_eq_left, List.drop_replicate]
  | arrT k t ih =>
      intro v hv rest
      cases v <;> simp [wf] at hv
      rename_i es
      obtain ⟨hk, hes⟩ := hv
      subst hk
      simp only [serializeField, deserializeField, defaultVal, serializedLength]
      have hguard : serializedLengths (List.replicate es.length (defaultVal t)) ≤
          (serializeFields es ++ rest).length := by
        rw [serializedLengths_replicate]
        have h1 := wfList_dLen_le t (wf_dLen_le t) _ hes
        have h2 := wfList_serializeFields_length t (wf_serializeField_length t) _ hes
        simp only [dLen] at h1 ⊢
        simp [h2]
        omega
      rw [if_pos hguard, roundtrip_list t ih _ hes rest]

/-! ## Bounded writer lemmas -/

theorem writeBytes_length (xs : List Nat) :
    ∀ buf i, (writeBytes buf i xs).length = buf.length := by
  induction xs with
  | nil => intro buf i; simp [writeBytes]
  | cons x xs ih => intro buf i; simp [writeBytes, ih, List.length_set]

theorem writeBytes_append (xs ys : List Nat) : ∀ buf i,
    writeBytes buf i (xs ++ ys) = writeBytes (writeBytes buf i xs) (i + xs.length) ys := by
  induction xs with
  | nil => intro buf i; simp [writeBytes]
  | cons x xs ih =>
      intro buf i
      have hi : i + (xs.length + 1) = (i + 1) + xs.length := by omega
      simp [writeBytes, ih, hi]

theorem writeBytes_getElem? (xs : List Nat) : ∀ (buf : List Nat) (i j : Nat),
    (writeBytes buf i xs)[j]? =
      if i ≤ j ∧ j < i + xs.length ∧ j < buf.length then xs[j - i]? else buf[j]? := by
  induction xs with
  | nil =>
      intro buf i j
      simp only [writeBytes, List.length_nil]
      rw [if_neg (by omega)]
  | cons x xs ih =>
      intro buf i j
      simp only [writeBytes]
      rw [ih, List.length_set]
      rcases Nat.lt_trichotomy j i with hj | hj | hj
      · rw [if_neg (by omega), if_neg (by omega), List.getElem?_set_ne (by omega)]
      · subst hj
        rw [if_neg (by omega), List.getElem?_set]
        by_cases hlen : j < buf.length
        · rw [if_pos rfl, if_pos hlen, if_pos (by simp; omega)]
          simp
        · rw [if_pos rfl, if_neg hlen, if_neg (by omega)]
          rw [List.getElem?_eq_none (by omega)]
      · rw [List.getElem?_set_ne (by omega)]
        have hsub : j - i = (j - (i + 1)) + 1 := by omega
        by_cases hc : i + 1 ≤ j ∧ j < i + 1 + xs.length ∧ j < buf.length
        · rw [if_pos hc, if_pos (by simp [List.length_cons]; omega), hsub]
          simp
        · rw [if_neg hc, if_neg (by simp [List.length_cons]; omega)]

/-- `memcpy` of a whole block starting at index 0 overwrites the prefix and
keeps the tail. -/
theorem writeBytes_zero (xs buf : List Nat) (h : xs.length ≤ buf.length) :
    writeBytes buf 0 xs = xs ++ buf.drop xs.length := by
  apply List.ext_getElem?
  intro j
  rw [writeBytes_getElem? xs buf 0 j]
  by_cases hj : j < xs.length
  · rw [if_pos (by omega), List.getElem?_append_left hj]
    simp
  · rw [if_neg (by omega), List.getElem?_append_right (by omega), List.getElem?_drop]
    congr 1
    omega

theorem serializeFieldsB_suff_of (t : FieldTy)
    (ihf : ∀ v (buf : List Nat) (it endIdx : Nat), wf t v = true → endIdx ≤ buf.length →
      it + serializedLength v ≤ endIdx →
      (serializeFieldB v buf it endIdx).buf = writeBytes buf it (serializeField v) ∧
      (serializeFieldB v buf it endIdx).it = it + serializedLength v) :
    ∀ es (buf : List Nat) (it endIdx : Nat), wfList t es = true → endIdx ≤ buf.length →
      it + serializedLengths es ≤ endIdx →
      (serializeFieldsB es buf it endIdx).buf = writeBytes buf it (serializeFields es) ∧
      (serializeFieldsB es buf it endIdx).it = it + serializedLengths es := by
  intro es
  induction es with
  | nil => intro buf it endIdx _ _ _; simp [serializeFieldsB, writeBytes, serializeFields,
      serializedLengths]
  | cons e es ih =>
      intro buf it endIdx hes hend hcap
      simp only [wfList, Bool.and_eq_true] at hes
      simp only [serializedLengths] at hcap
      simp only [serializeFieldsB]
      have h1 := ihf e buf it endIdx hes.1 hend (by omega)
      rw [h1.1, h1.2]
      have hend2 : endIdx ≤ (writeBytes buf it (serializeField e)).length := by
        rw [writeBytes_length]; exact hend
      have h2 := ih (writeBytes buf it (serializeField e)) (it + serializedLength e) endIdx
        hes.2 hend2 (by omega)
      rw [h2.1, h2.2]
      have hlen := wf_serializeField_length t e hes.1
      constructor
      · rw [serializeFields, writeBytes_append, hlen]
      · simp [serializedLengths]; omega

/-- When the remaining room suffices, a field writer behaves as a plain
`memcpy` of the field's wire image and advances the cursor by exactly the
field's serialized length. -/
theorem serializeFieldB_suff :
    ∀ (t : FieldTy) (v : FieldVal) (buf : List Nat) (it endIdx : Nat), wf t v = true →
      endIdx ≤ buf.length → it + serializedLength v ≤ endIdx →
      (serializeFieldB v buf it endIdx).buf = writeBytes buf it (serializeField v) ∧
      (serializeFieldB v buf it endIdx).it = it + serializedLength v := by
  intro t
  induction t with
  | scalarT n =>
      intro v buf it endIdx hv hend hcap
      cases v <;> simp [wf] at hv
      rename_i bs
      subst hv
      simp only [serializedLength] at hcap
      have hmin : min bs.length (endIdx - it) = bs.length := by omega
      simp [serializeFieldB, memcpyB, hmin, List.take_length, serializeField, serializedLength]
  | bstrT cap =>
      intro v buf it endIdx hv hend hcap
      cases v <;> simp [wf] at hv
      rename_i cap' content
      simp only [serializedLength] at hcap
      have htl : min (content.length + 1) (endIdx - it) = content.length + 1 := by omega
      simp only [serializeFieldB, memcpyB, htl, Nat.add_sub_cancel]
      have hmin : min content.length (endIdx - it) = content.length := by omega
      rw [hmin, List.take_length]
      refine ⟨?_, by simp [serializedLength]; omega⟩
      simp only [serializeField]
      rw [writeBytes_append]
      simp [writeBytes]
  | dstrT =>
      intro v buf it endIdx hv hend hcap
      cases v <;> simp [wf] at hv
      rename_i content
      simp only [serializedLength] at hcap
      have htl : min (content.length + 1) (endIdx - it) = content.length + 1 := by omega
      simp only [serializeFieldB, memcpyB, htl, Nat.add_sub_cancel]
      have hmin : min content.length (endIdx - it) = content.length := by omega
      rw [hmin, List.take_length]
      refine ⟨?_, by simp [serializedLength]; omega⟩
      simp only [serializeField]
      rw [writeBytes_append]
      simp [writeBytes]
  | bitfT bl =>
      intro v buf it endIdx hv hend hcap
      cases v <;> simp [wf] at hv
      rename_i bl' st
      obtain ⟨hbl, hlen⟩ := hv
      subst hbl
      simp only [serializedLength] at hcap
      simp only [serializeFieldB, memcpyB, serializeField, serializedLength]
      have hmin : min st.length (endIdx - it) = st.length := by omega
      rw [hmin, List.take_length, hlen]
      exact ⟨rfl, rfl⟩
  | arrT k t ih =>
      intro v buf it endIdx hv hend hcap
      cases v <;> simp [wf] at hv
      rename_i es
      simp only [serializedLength] at hcap
      simp only [serializeFieldB, serializeField, serializedLength]
      exact serializeFieldsB_suff_of t ih es buf it endIdx hv.2 hend hcap

/-- Packet version of `serializeFieldB_suff`, pairing each field with its
declared type. -/
theorem serializeFieldsB_packet :
    ∀ (tys : List FieldTy) (fields : List FieldVal) (buf : List Nat) (it endIdx : Nat),
      wfPacket tys fields = true → endIdx ≤ buf.length →
      it + serializedLengths fields ≤ endIdx →
      (serializeFieldsB fields buf it endIdx).buf = writeBytes buf it (serializeFields fields) ∧
      (serializeFieldsB fields buf it endIdx).it = it + serializedLengths fields := by
  intro tys
  induction tys with
  | nil =>
      intro fields buf it endIdx hwf _ _
      cases fields <;> simp [wfPacket] at hwf
      simp [serializeFieldsB, writeBytes, serializeFields, serializedLengths]
  | cons t ts ih =>
      intro fields buf it endIdx hwf hend hcap
      cases fields with
      | nil => simp [wfPacket] at hwf
      | cons v vs =>
          simp only [wfPacket, Bool.and_eq_true] at hwf
          simp only [serializedLengths] at hcap
          simp only [serializeFieldsB]
          have h1 := serializeFieldB_suff t v buf it endIdx hwf.1 hend (by omega)
          rw [h1.1, h1.2]
          have hend2 : endIdx ≤ (writeBytes buf it (serializeField v)).length := by
            rw [writeBytes_length]; exact hend
          have h2 := ih vs (writeBytes buf it (serializeField v)) (it + serializedLength v)
            endIdx hwf.2 hend2 (by omega)
          rw [h2.1, h2.2]
          have hlen := wf_serializeField_length t v hwf.1
          constructor
          · rw [serializeFields, writeBytes_append, hlen]
          · simp [serializedLengths]; omega

theorem wfPacket_serializeFields_length :
    ∀ (tys : List FieldTy) (fields : List FieldVal), wfPacket tys fields = true →
      (serializeFields fields).length = serializedLengths fields := by
  intro tys
  induction tys with
  | nil =>
      intro fields hwf
      cases fields <;> simp [wfPacket] at hwf
      simp [serializeFields, serializedLengths]
  | cons t ts ih =>
      intro fields hwf
      cases fields with
      | nil => simp [wfPacket] at hwf
      | cons v vs =>
          simp only [wfPacket, Bool.and_eq_true] at hwf
          simp [serializeFields, serializedLengths, wf_serializeField_length t v hwf.1,
            ih vs hwf.2]

/-- With a large enough buffer the top-level serializer writes the per-field
wire images back to back at the start of the buffer, leaves the tail alone and
reports the packet's serialized length. -/
theorem SerializeTop_suff (tys : List FieldTy) (fields : List FieldVal) (buf : List Nat)
    (hwf : wfPacket tys fields = true) (h : serializedLengths fields ≤ buf.length) :
    SerializeTop fields buf =
      (serializedLengths fields, serializeFields fields ++ buf.drop (serializedLengths fields)) := by
  simp only [SerializeTop, if_neg (by omega : ¬ buf.length < serializedLengths fields)]
  have hb := serializeFieldsB_packet tys fields buf 0 buf.length hwf le_rfl (by omega)
  rw [hb.1, hb.2]
  have hlen := wfPacket_serializeFields_length tys fields hwf
  rw [writeBytes_zero _ _ (by omega), hlen]
  simp

/-! ## Packet-level round trip -/

theorem roundtrip_packet :
    ∀ (tys : List FieldTy) (fields : List FieldVal), wfPacket tys fields = true → ∀ rest,
      unserializePacket tys (serializeFields fields ++ rest) =
        (serializedLengths fields, true, fields) := by
  intro tys
  induction tys with
  | nil =>
      intro fields hwf rest
      cases fields <;> simp [wfPacket] at hwf
      simp [serializeFields, unserializePacket, serializedLengths]
  | cons t ts ih =>
      intro fields hwf rest
      cases fields with
      | nil => simp [wfPacket] at hwf
      | cons v vs =>
          simp only [wfPacket, Bool.and_eq_true] at hwf
          simp only [serializeFields, unserializePacket]
          rw [List.append_assoc, roundtrip_field t v hwf.1 (serializeFields vs ++ rest)]
          have hlen := wf_serializeField_length t v hwf.1
          have hdrop : (serializeField v ++ (serializeFields vs ++ rest)).drop
              (serializedLength v) = serializeFields vs ++ rest := by
            rw [← hlen]; exact List.drop_left _ _
          simp only [hdrop, ih vs hwf.2 rest, serializedLengths]
          simp

/-! ## Minimum-length lemmas for decoding -/

theorem dLen_scalarT (n : Nat) : dLen (.scalarT n) = n := by
  simp [dLen, defaultVal, serializedLength]

theorem dLen_bstrT (cap : Nat) : dLen (.bstrT cap) = 1 := by
  simp [dLen, defaultVal, serializedLength]

theorem dLen_dstrT : dLen .dstrT = 1 := by
  simp [dLen, defaultVal, serializedLength]

theorem dLen_bitfT (bl : Nat) : dLen (.bitfT bl) = byteLength bl := by
  simp [dLen, defaultVal, serializedLength]

theorem deserializeList_default_ok_min (t : FieldTy)
    (ihf : ∀ (data : List Nat) (c : Nat) (b : Bool) (v : FieldVal),
      deserializeField t (defaultVal t) data = (c, b, v) → b = true →
      min (dLen t) data.length ≤ c) :
    ∀ (m : Nat) (data : List Nat) (c : Nat) (b : Bool) (es : List FieldVal),
      deserializeListWith (deserializeField t) (List.replicate m (defaultVal t)) data =
        (c, b, es) → b = true → min (m * dLen t) data.length ≤ c := by
  intro m
  induction m with
  | zero =>
      intro data c b es h _
      simp only [List.replicate_zero, deserializeListWith, Prod.mk.injEq] at h
      omega
  | succ m ih =>
      intro data c b es h hb
      subst hb
      simp only [List.replicate_succ, deserializeListWith, Prod.mk.injEq] at h
      obtain ⟨hc, hb2, -⟩ := h
      rw [Bool.and_eq_true] at hb2
      have h1 := ihf data _ _ _ rfl hb2.1
      have h2 := ih (data.drop (deserializeField t (defaultVal t) data).1) _ _ _ rfl hb2.2
      have hle := deserializeField_consumed_le t (defaultVal t) data
      rw [List.length_drop] at h2
      have hmul : (m + 1) * dLen t = dLen t + m * dLen t := by ring
      omega

/-- If a field decode from a fresh scratch element leaves the valid flag
intact, it consumed at least `min (dLen t) length` bytes. -/
theorem deserializeField_default_ok_min :
    ∀ (t : FieldTy) (data : List Nat) (c : Nat) (b : Bool) (v : FieldVal),
      deserializeField t (defaultVal t) data = (c, b, v) → b = true →
      min (dLen t) data.length ≤ c := by
  intro t
  induction t with
  | scalarT n =>
      intro data c b v h hb
      subst hb
      simp only [deserializeField] at h
      split at h <;> simp only [Prod.mk.injEq] at h
      · rw [dLen_scalarT]
        omega
      · exact absurd h.2.1 (by simp)
  | bstrT cap =>
      intro data c b v h hb
      simp only [deserializeField, Prod.mk.injEq] at h
      rw [dLen_bstrT]
      rcases Nat.lt_or_ge (min (strlenS data) cap) data.length with hc | hc
      · rw [if_pos hc] at h
        omega
      · rw [if_neg (by omega)] at h
        omega
  | dstrT =>
      intro data c b v h hb
      simp only [deserializeField, Prod.mk.injEq] at h
      rw [dLen_dstrT]
      rcases Nat.lt_or_ge (strlenS data) data.length with hc | hc
      · rw [if_pos hc] at h
        omega
      · rw [if_neg (by omega)] at h
        omega
  | bitfT bl =>
      intro data c b v h _
      simp only [deserializeField, Prod.mk.injEq] at h
      rw [dLen_bitfT]
      omega
  | arrT k t ih =>
      intro data c b v h hb
      subst hb
      simp only [deserializeField, defaultVal] at h
      rw [serializedLengths_replicate] at h
      split at h <;> simp only [Prod.mk.injEq] at h
      · obtain ⟨hc, hb2, -⟩ := h
        have := deserializeList_default_ok_min t ih k data _ _ _ rfl hb2
        have hd : dLen (.arrT k t) = k * dLen t := dLen_arrT k t
        have he : serializedLength (defaultVal t) = dLen t := rfl
        rw [he] at *
        omega
      · exact absurd h.2.1 (by simp)

/-- A valid field decode from a fresh scratch element consumes at least the
field type's minimum required length. -/
theorem deserializeField_default_ok_minLen :
    ∀ (t : FieldTy) (data : List Nat) (c : Nat) (b : Bool) (v : FieldVal),
      deserializeField t (defaultVal t) data = (c, b, v) → b = true → minLen t ≤ c := by
  intro t
  cases t with
  | scalarT n =>
      intro data c b v h hb
      subst hb
      simp only [deserializeField] at h
      split at h <;> simp only [Prod.mk.injEq] at h
      · simp only [minLen]
        omega
      · exact absurd h.2.1 (by simp)
  | bstrT cap => intro data c b v _ _; simp [minLen]
  | dstrT => intro data c b v _ _; simp [minLen]
  | bitfT bl =>
      intro data c b v h hb
      subst hb
      simp only [deserializeField, Prod.mk.injEq] at h
      obtain ⟨hc, hb2, -⟩ := h
      simp only [decide_eq_true_eq] at hb2
      simp only [minLen]
      omega
  | arrT k t =>
      intro data c b v h hb
      subst hb
      have hmin := deserializeField_default_ok_min (.arrT k t) data c true v h rfl
      simp only [deserializeField, defaultVal] at h
      rw [serializedLengths_replicate] at h
      split at h <;> simp only [Prod.mk.injEq] at h
      · rename_i hguard
        have he : serializedLength (defaultVal t) = dLen t := rfl
        rw [he] at hguard
        rw [dLen_arrT] at hmin
        simp only [minLen]
        omega
      · exact absurd h.2.1 (by simp)

theorem unserializePacket_consumed_le :
    ∀ (tys : List FieldTy) (data : List Nat),
      (unserializePacket tys data).1 ≤ data.length := by
  intro tys
  induction tys with
  | nil => intro data; simp [unserializePacket]
  | cons t ts ih =>
      intro data
      simp only [unserializePacket]
      have h1 := deserializeField_consumed_le t (defaultVal t) data
      have h2 := ih (data.drop (deserializeField t (defaultVal t) data).1)
      rw [List.length_drop] at h2
      omega

theorem unserializePacket_valid_minLen :
    ∀ (tys : List FieldTy) (data : List Nat),
      (unserializePacket tys data).2.1 = true →
      minLenPacket tys ≤ (unserializePacket tys data).1 := by
  intro tys
  induction tys with
  | nil => intro data _; simp [unserializePacket, minLenPacket]
  | cons t ts ih =>
      intro data hvalid
      simp only [unserializePacket, Bool.and_eq_true] at hvalid ⊢
      have h1 := deserializeField_default_ok_minLen t data _ _ _ rfl hvalid.1
      have h2 := ih (data.drop (deserializeField t (defaultVal t) data).1) hvalid.2
      simp only [minLenPacket]
      omega

/-! ## Identifier matching lemmas -/

theorem firstMismatch_le : ∀ (id data : List Nat), firstMismatch id data ≤ id.length := by
  intro id
  induction id with
  | nil => intro data; simp [firstMismatch]
  | cons x xs ih =>
      intro data
      cases data with
      | nil => simp [firstMismatch]
      | cons y ys =>
          by_cases h : x = y <;> simp [firstMismatch, h]
          exact ih ys

theorem firstMismatch_eq_iff :
    ∀ (id data : List Nat), id.length ≤ data.length →
      (firstMismatch id data = id.length ↔ data.take id.length = id) := by
  intro id
  induction id with
  | nil => intro data _; simp [firstMismatch]
  | cons x xs ih =>
      intro data hlen
      cases data with
      | nil => simp at hlen
      | cons y ys =>
          simp only [List.length_cons] at hlen
          by_cases h : x = y
          · subst h
            simp [firstMismatch, List.take_succ_cons, ih ys (by omega)]
          · constructor
            · intro h0
              simp [firstMismatch, h] at h0
            · intro ht
              rw [List.length_cons, List.take_succ_cons] at ht
              exact absurd (List.cons.inj ht).1.symm h

/-! ## Bitfield lemmas -/

theorem calculateBitMask_lt (s l : Nat) : calculateBitMask s l < 256 := by
  simp only [calculateBitMask]
  omega

/-- `WriteData` deposits exactly `(data & (mask >> shift)) << shift` in the
masked bit range of the backing byte it targets. -/
theorem writeData_masked_store (st : List Nat) (s l v : Nat)
    (h : storageLocation s < st.length) :
    (WriteData st s l v).getD (storageLocation s) 0 &&& calculateBitMask s l =
      (v &&& (calculateBitMask s l >>> (s % 8))) <<< (s % 8) := by
  have hm : calculateBitMask s l < 256 := calculateBitMask_lt s l
  simp only [WriteData, List.getD_eq_getElem?_getD]
  rw [List.getElem?_set_eq_of_lt _ h]
  simp only [Option.getD_some]
  set m := calculateBitMask s l with hmdef
  set sh := s % 8 with hshdef
  apply Nat.eq_of_testBit_eq
  intro i
  simp only [Nat.testBit_land, Nat.testBit_lor, Nat.testBit_xor, Nat.testBit_shiftLeft,
    Nat.testBit_shiftRight]
  by_cases hsh : sh ≤ i
  · by_cases hmi : m.testBit i
    · have h255 : (255 : Nat).testBit i = decide (i < 8) := by
        have h8 : (255 : Nat) = 2 ^ 8 - 1 := by norm_num
        rw [h8, Nat.testBit_two_pow_sub_one]
      have hi8 : i < 8 := by
        by_contra hge
        have h2 : (256 : Nat) ≤ 2 ^ i :=
          calc (256 : Nat) = 2 ^ 8 := by norm_num
          _ ≤ 2 ^ i := Nat.pow_le_pow_right (by norm_num) (by omega)
        rw [Nat.testBit_lt_two_pow (by omega)] at hmi
        exact Bool.false_ne_true hmi
      have hisub : i - sh + sh = i := by omega
      simp [h255, hi8, hmi, hisub, hsh]
    · have hisub : i - sh + sh = i := by omega
      simp [hmi, hisub, hsh]
  · have hmi : m.testBit i = false := by
      rw [hmdef]
      simp only [calculateBitMask]
      have h256 : (256 : Nat) = 2 ^ 8 := by norm_num
      rw [h256, Nat.testBit_mod_two_pow, ← Nat.shiftLeft_eq, Nat.testBit_shiftLeft]
      simp [Nat.not_le.2 (show i < s % 8 by omega)]
    simp [hmi, hsh]

/-- A prefix mismatch or a short window makes the pointer `CheckIDMatch`
report no match. -/
theorem CheckIDMatch_matched_false (w id : List Nat)
    (h : ¬ (id.length ≤ w.length ∧ w.take id.length = id)) :
    (CheckIDMatch w id).1 = false := by
  by_cases hl : w.length < id.length
  · simp [CheckIDMatch, hl]
  · have h1 : id.length ≤ w.length := by omega
    have hneq : w.take id.length ≠ id := fun ht => h ⟨h1, ht⟩
    have hfm : ¬ firstMismatch id w = id.length :=
      fun hfm => hneq ((firstMismatch_eq_iff id w h1).1 hfm)
    simp [CheckIDMatch, hl, hfm]

/-! ## Claim theorems -/

/-- C1: For every packet whose fields are all within their declared bounds,
serializing the packet into a sufficiently large buffer and then deserializing
the produced bytes into a fresh packet of the same type yields a packet equal
to the original field-for-field, and the number of bytes consumed by
deserialization equals the number of bytes written by serialization. -/
theorem serialize_unserialize_roundtrip (tys : List FieldTy) (fields target : List FieldVal)
    (buf : List Nat) (hwf : wfPacket tys fields = true)
    (hcap : serializedLengths fields ≤ buf.length) :
    (SerializeTop fields buf).1 = serializedLengths fields ∧
    Unserialize tys ((SerializeTop fields buf).2.take (SerializeTop fields buf).1) target =
      ((SerializeTop fields buf).1, true, fields) := by
  have hs := SerializeTop_suff tys fields buf hwf hcap
  rw [hs]
  refine ⟨rfl, ?_⟩
  have hlen := wfPacket_serializeFields_length tys fields hwf
  have htake : (serializeFields fields ++ buf.drop (serializedLengths fields)).take
      (serializedLengths fields) = serializeFields fields := by
    rw [← hlen]
    exact List.take_left _ _
  have hrt := roundtrip_packet tys fields hwf []
  rw [List.append_nil] at hrt
  simp [htake, Unserialize, hrt]

theorem serialize_unserialize_roundtrip_witness :
    (SerializeTop
        [.scalar [246, 255, 255, 255], .bstr 10 [72, 69, 76, 76, 79, 32, 87, 79, 82, 76],
          .bitf 1 [1], .bitf 70 [0, 0, 0, 0, 0, 0, 0, 0, 0]]
        (List.replicate 30 9)).1 =
      serializedLengths
        [.scalar [246, 255, 255, 255], .bstr 10 [72, 69, 76, 76, 79, 32, 87, 79, 82, 76],
          .bitf 1 [1], .bitf 70 [0, 0, 0, 0, 0, 0, 0, 0, 0]] ∧
    Unserialize [.scalarT 4, .bstrT 10, .bitfT 1, .bitfT 70]
        ((SerializeTop
            [.scalar [246, 255, 255, 255], .bstr 10 [72, 69, 76, 76, 79, 32, 87, 79, 82, 76],
              .bitf 1 [1], .bitf 70 [0, 0, 0, 0, 0, 0, 0, 0, 0]]
            (List.replicate 30 9)).2.take
          (SerializeTop
              [.scalar [246, 255, 255, 255], .bstr 10 [72, 69, 76, 76, 79, 32, 87, 79, 82, 76],
                .bitf 1 [1], .bitf 70 [0, 0, 0, 0, 0, 0, 0, 0, 0]]
              (List.replicate 30 9)).1)
        [.scalar [0, 0, 0, 0], .bstr 10 [], .bitf 1 [0], .bitf 70 [0, 0, 0, 0, 0, 0, 0, 0, 0]] =
      ((SerializeTop
          [.scalar [246, 255, 255, 255], .bstr 10 [72, 69, 76, 76, 79, 32, 87, 79, 82, 76],
            .bitf 1 [1], .bitf 70 [0, 0, 0, 0, 0, 0, 0, 0, 0]]
          (List.replicate 30 9)).1, true,
        [.scalar [246, 255, 255, 255], .bstr 10 [72, 69, 76, 76, 79, 32, 87, 79, 82, 76],
          .bitf 1 [1], .bitf 70 [0, 0, 0, 0, 0, 0, 0, 0, 0]]) :=
  serialize_unserialize_roundtrip [.scalarT 4, .bstrT 10, .bitfT 1, .bitfT 70]
    [.scalar [246, 255, 255, 255], .bstr 10 [72, 69, 76, 76, 79, 32, 87, 79, 82, 76],
      .bitf 1 [1], .bitf 70 [0, 0, 0, 0, 0, 0, 0, 0, 0]]
    [.scalar [0, 0, 0, 0], .bstr 10 [], .bitf 1 [0], .bitf 70 [0, 0, 0, 0, 0, 0, 0, 0, 0]]
    (List.replicate 30 9) (by decide) (by decide)

/-- C2: For every target packet with arbitrary prior field values and every
input buffer shorter than the packet type's minimum required length,
Unserialize into that packet returns valid = false and leaves every prior
field value of the target packet unchanged (the scratch decode set is
discarded and never committed). -/
theorem short_buffer_unserialize_invalid (tys : List FieldTy) (data : List Nat)
    (target : List FieldVal) (h : data.length < minLenPacket tys) :
    (Unserialize tys data target).2.1 = false ∧
    (Unserialize tys data target).2.2 = target := by
  have hb : (unserializePacket tys data).2.1 = false := by
    by_contra hb
    rw [Bool.not_eq_false] at hb
    have h1 := unserializePacket_valid_minLen tys data hb
    have h2 := unserializePacket_consumed_le tys data
    omega
  simp [Unserialize, hb]

theorem short_buffer_unserialize_invalid_witness :
    (Unserialize [.scalarT 4, .bstrT 10] [1, 2] [.scalar [9, 9, 9, 9], .bstr 10 [65]]).2.1 =
      false ∧
    (Unserialize [.scalarT 4, .bstrT 10] [1, 2] [.scalar [9, 9, 9, 9], .bstr 10 [65]]).2.2 =
      [.scalar [9, 9, 9, 9], .bstr 10 [65]] :=
  short_buffer_unserialize_invalid [.scalarT 4, .bstrT 10] [1, 2]
    [.scalar [9, 9, 9, 9], .bstr 10 [65]] (by decide)

/-- C3 (failing input): the string field writer, invoked with zero remaining
space (`it = end`, here both `0` on a buffer whose allocation extends past the
end bound), still stores its terminator byte: it touches index `0`, which is
not below the end bound `0`, and the allocation byte beyond the end bound is
overwritten from `7` to `0`.  This contradicts the claim that every per-field
writer writes only within `[cursor, end)`. -/
theorem string_writer_terminator_oob :
    (serializeFieldB (.bstr 10 []) [7] 0 0).touched = [0] ∧
    (serializeFieldB (.bstr 10 []) [7] 0 0).buf = [0] ∧
    (serializeFieldB (.dstr []) [7] 0 0).touched = [0] ∧
    ¬ (∀ i ∈ (serializeFieldB (.bstr 10 []) [7] 0 0).touched, i < 0) := by
  refine ⟨rfl, rfl, rfl, fun hall => ?_⟩
  have h0 := hall 0 (by decide)
  omega

/-- C4: For every packet and every destination buffer, if the buffer capacity
is smaller than GetSerializedLength() the top-level Serialize returns 0 and
writes no field data into the buffer; otherwise it serializes the fields
strictly in declaration order into a contiguous region and returns the total
number of bytes actually written. -/
theorem serialize_capacity_check (tys : List FieldTy) (fields : List FieldVal) (buf : List Nat)
    (hwf : wfPacket tys fields = true) :
    (buf.length < serializedLengths fields → SerializeTop fields buf = (0, buf)) ∧
    (serializedLengths fields ≤ buf.length →
      SerializeTop fields buf =
        (serializedLengths fields,
          serializeFields fields ++ buf.drop (serializedLengths fields))) := by
  refine ⟨fun h => ?_, fun h => SerializeTop_suff tys fields buf hwf h⟩
  simp [SerializeTop, h]

theorem serialize_capacity_check_witness :
    SerializeTop [.scalar [1, 2], .bstr 3 [65]] [9, 9, 9] = (0, [9, 9, 9]) ∧
    SerializeTop [.scalar [1, 2], .bstr 3 [65]] [9, 9, 9, 9, 9] =
      (serializedLengths [.scalar [1, 2], .bstr 3 [65]],
        serializeFields [.scalar [1, 2], .bstr 3 [65]] ++
          [9, 9, 9, 9, 9].drop (serializedLengths [.scalar [1, 2], .bstr 3 [65]])) :=
  ⟨(serialize_capacity_check [.scalarT 2, .bstrT 3] [.scalar [1, 2], .bstr 3 [65]] [9, 9, 9]
      (by decide)).1 (by decide),
    (serialize_capacity_check [.scalarT 2, .bstrT 3] [.scalar [1, 2], .bstr 3 [65]]
      [9, 9, 9, 9, 9] (by decide)).2 (by decide)⟩

/-- C5: For every stored identifier of IdLen bytes and every input buffer: if
length < IdLen, CheckIDMatch reports no match; if the first IdLen bytes of
the buffer equal the identifier byte-for-byte, it reports a match with
payload_start pointing just past the identifier and
remaining_length = length - IdLen; and on any prefix byte that differs it
reports no match regardless of the remaining buffer contents. -/
theorem checkIDMatch_spec (id data : List Nat) :
    (data.length < id.length → (CheckIDMatch data id).1 = false) ∧
    (id.length ≤ data.length → data.take id.length = id →
      CheckIDMatch data id = (true, some id.length, data.length - id.length)) ∧
    (∀ j, j < id.length → data[j]? ≠ id[j]? → (CheckIDMatch data id).1 = false) := by
  refine ⟨fun h => ?_, fun h1 h2 => ?_, fun j hj hne => ?_⟩
  · simp [CheckIDMatch, h]
  · have hfm : firstMismatch id data = id.length := (firstMismatch_eq_iff id data h1).2 h2
    simp [CheckIDMatch, if_neg (by omega : ¬ data.length < id.length), hfm]
  · by_cases hlen : data.length < id.length
    · simp [CheckIDMatch, hlen]
    · have h1 : id.length ≤ data.length := by omega
      have hneq : ¬ data.take id.length = id := by
        intro ht
        apply hne
        conv_rhs => rw [← ht]
        rw [List.getElem?_take_of_lt hj]
      have hfm : ¬ firstMismatch id data = id.length :=
        fun hfm => hneq ((firstMismatch_eq_iff id data h1).1 hfm)
      simp [CheckIDMatch, if_neg (by omega : ¬ data.length < id.length), hfm]

theorem checkIDMatch_spec_witness :
    ((CheckIDMatch [2] [2, 3]).1 = false) ∧
    CheckIDMatch [2, 3, 7, 8] [2, 3] = (true, some 2, 2) ∧
    ((CheckIDMatch [10, 10, 20, 20] [2, 3]).1 = false) :=
  ⟨(checkIDMatch_spec [2, 3] [2]).1 (by decide),
    (checkIDMatch_spec [2, 3] [2, 3, 7, 8]).2.1 (by decide) (by decide),
    (checkIDMatch_spec [2, 3] [10, 10, 20, 20]).2.2 0 (by decide) (by decide)⟩

/-- C6: For a Bitfield of bit-length 1 with a single 1-bit sub-field at offset
0, writing value 1 then reading returns 1; writing value 5 (binary 101) then
reading returns 1 (only the low bit is kept); writing value 4 (binary 100)
then reading returns 0 — in general WriteData stores only
(value & (mask >> shift)) << shift into the masked bit range. -/
theorem bitfield_write_mask_precision :
    (GetData (WriteData [0] 0 1 1) 0 1 = 1 ∧
      GetData (WriteData [0] 0 1 5) 0 1 = 1 ∧
      GetData (WriteData [0] 0 1 4) 0 1 = 0) ∧
    ∀ (st : List Nat) (s l v : Nat), storageLocation s < st.length →
      (WriteData st s l v).getD (storageLocation s) 0 &&& calculateBitMask s l =
        (v &&& (calculateBitMask s l >>> (s % 8))) <<< (s % 8) :=
  ⟨by decide, fun st s l v h => writeData_masked_store st s l v h⟩

theorem bitfield_write_mask_precision_witness :
    (WriteData [3, 7] 2 3 6).getD (storageLocation 2) 0 &&& calculateBitMask 2 3 =
      (6 &&& (calculateBitMask 2 3 >>> (2 % 8))) <<< (2 % 8) :=
  bitfield_write_mask_precision.2 [3, 7] 2 3 6 (by decide)

/-- C7: A Bitfield declared with 70 bits has a backing storage of at least
ceil(70/8) = 9 bytes, and for the two sub-fields at offset 0 (length 5) and
offset 13 (length 3), writing any value to either sub-field leaves the value
read back from the other sub-field unchanged. -/
theorem bitfield_allocation_independence :
    byteLength 70 = 9 ∧
    defaultVal (.bitfT 70) = .bitf 70 (List.replicate 9 0) ∧
    (∀ (st : List Nat) (v : Nat), GetData (WriteData st 0 5 v) 13 3 = GetData st 13 3) ∧
    (∀ (st : List Nat) (v : Nat), GetData (WriteData st 13 3 v) 0 5 = GetData st 0 5) := by
  refine ⟨rfl, rfl, fun st v => ?_, fun st v => ?_⟩
  · simp [GetData, WriteData, storageLocation, List.getD_eq_getElem?_getD,
      List.getElem?_set_ne (show (0 : Nat) ≠ 1 by decide)]
  · simp [GetData, WriteData, storageLocation, List.getD_eq_getElem?_getD,
      List.getElem?_set_ne (show (1 : Nat) ≠ 0 by decide)]

/-- C8: For every input buffer and every length, deserializing a bounded or
dynamic string field never sets the validity flag to false: it scans for a
terminator within the bounds, copies the found prefix, consumes one extra
byte when a terminator was present, and leaves the caller's validity flag
exactly as it was, even when the input is truncated before a terminator. -/
theorem string_decode_never_invalid (cap : Nat) (prior : FieldVal) (data : List Nat) :
    (deserializeField (.bstrT cap) prior data).2.1 = true ∧
    (deserializeField .dstrT prior data).2.1 = true ∧
    (deserializeField (.bstrT cap) prior data).2.2 =
      .bstr cap (data.take (min (strlenS data) cap)) ∧
    (strlenS data ≤ cap → strlenS data < data.length →
      (deserializeField (.bstrT cap) prior data).1 = strlenS data + 1) ∧
    (strlenS data < data.length →
      (deserializeField .dstrT prior data).1 = strlenS data + 1) := by
  refine ⟨rfl, rfl, rfl, fun h1 h2 => ?_, fun h2 => ?_⟩
  · simp [deserializeField, Nat.min_eq_left h1, h2]
  · simp [deserializeField, h2]

theorem string_decode_never_invalid_witness :
    (deserializeField (.bstrT 5) (.bstr 5 []) [65, 0, 66]).2.1 = true ∧
    (deserializeField (.bstrT 5) (.bstr 5 []) [65, 0, 66]).1 = strlenS [65, 0, 66] + 1 ∧
    (deserializeField .dstrT (.dstr []) [65, 0, 66]).1 = strlenS [65, 0, 66] + 1 :=
  ⟨(string_decode_never_invalid 5 (.bstr 5 []) [65, 0, 66]).1,
    (string_decode_never_invalid 5 (.bstr 5 []) [65, 0, 66]).2.2.2.1 (by decide) (by decide),
    (string_decode_never_invalid 5 (.dstr []) [65, 0, 66]).2.2.2.2 (by decide)⟩

/-- C9: When a fixed-size scalar field of n bytes is deserialized from a
buffer whose remaining length is less than n, the target element keeps its
previous value (no bytes are copied into it), the validity flag becomes
false, and the reported consumed count equals the entire remaining length;
only when length >= n are exactly n bytes copied and consumed. -/
theorem scalar_decode_short_buffer (n : Nat) (prior : FieldVal) (data : List Nat) :
    (data.length < n →
      deserializeField (.scalarT n) prior data = (data.length, false, prior)) ∧
    (n ≤ data.length →
      deserializeField (.scalarT n) prior data = (n, true, .scalar (data.take n))) := by
  refine ⟨fun h => ?_, fun h => ?_⟩
  · simp only [deserializeField]
    rw [if_neg (by omega)]
  · simp only [deserializeField]
    rw [if_pos h]

theorem scalar_decode_short_buffer_witness :
    deserializeField (.scalarT 4) (.scalar [1, 2, 3, 4]) [9, 9] = (2, false, .scalar [1, 2, 3, 4]) ∧
    deserializeField (.scalarT 2) (.scalar [1, 2]) [9, 9, 9] = (2, true, .scalar [9, 9]) :=
  ⟨(scalar_decode_short_buffer 4 (.scalar [1, 2, 3, 4]) [9, 9]).1 (by decide),
    (scalar_decode_short_buffer 2 (.scalar [1, 2]) [9, 9, 9]).2 (by decide)⟩

/-- C10: The public array-based CheckIDMatch overload, on every failing input
— identifier mismatch, length smaller than the identifier length, or a length
argument exceeding the array's size — returns the tuple
(false, iterator to the start of the buffer, 0); the position of the
diverging byte and the remaining byte count are never exposed to the caller
on a non-match. -/
theorem checkIDMatchArray_failure (id data : List Nat) (length : Nat)
    (h : data.length < length ∨ length < id.length ∨ (data.take length).take id.length ≠ id) :
    CheckIDMatchArray data length id = (false, 0, 0) := by
  by_cases hlen : length ≤ data.length
  · have hfalse : (CheckIDMatch (data.take length) id).1 = false := by
      apply CheckIDMatch_matched_false
      rintro ⟨h1, h2⟩
      rw [List.length_take] at h1
      rcases h with h | h | h
      · omega
      · omega
      · exact h h2
    simp [CheckIDMatchArray, hlen, hfalse]
  · simp [CheckIDMatchArray, hlen]

theorem checkIDMatchArray_failure_witness :
    CheckIDMatchArray [10, 10, 20, 20, 30, 30] 6 [2, 3] = (false, 0, 0) ∧
    CheckIDMatchArray [2] 1 [2, 3] = (false, 0, 0) ∧
    CheckIDMatchArray [2, 3, 7] 5 [2, 3] = (false, 0, 0) :=
  ⟨checkIDMatchArray_failure [2, 3] [10, 10, 20, 20, 30, 30] 6 (by decide),
    checkIDMatchArray_failure [2, 3] [2] 1 (by decide),
    checkIDMatchArray_failure [2, 3] [2, 3, 7] 5 (by decide)⟩

end BaseCom
